import Mathlib

/-!
Shallow embedding of `scripts/collect.py` (university / project ranking from
git commit history) and proofs about its core algorithms.

Modeling conventions:
* Python strings are modeled as `List Char` (`Str`); `str.lower()` maps
  `Char.toLower` (ASCII case folding, as in the source's ASCII email data),
  `str.strip()` drops ASCII whitespace from both ends.
* Python dicts are modeled as insertion-ordered association lists
  (`alLookup` / `alSet` / `alUpdate` mirror `d[k]`, `d[k] = v`, and the
  `defaultdict` get-or-create-then-mutate pattern).
* Python floats are modeled exactly in `ℚ`; the `round(...)` calls applied
  when serializing JSON are display formatting and are not modeled.  The two
  transcendental decay channels (`1/math.log(k+2)`, `1/math.sqrt(k+1)`) are
  floating-point-only export signals; the state carries the exactly
  representable channels (harmonic, linear, uniform) that the scoring and
  the properties below depend on.
* `list.sort` / `sorted` (Python's stable sort) is modeled by the stable
  `List.mergeSort`.
-/

abbrev Str := List Char

/-- ASCII whitespace stripped by Python's `str.strip()`. -/
def isPySpace (c : Char) : Bool :=
  c.toNat = 32 || c.toNat = 9 || c.toNat = 10 || c.toNat = 13 || c.toNat = 11 || c.toNat = 12

/-- Embedding of `s.lower()`. -/
def pyLower (s : Str) : Str := s.map Char.toLower

/-- Embedding of `s.strip()`. -/
def pyStrip (s : Str) : Str :=
  ((s.dropWhile isPySpace).reverse.dropWhile isPySpace).reverse

/-- Embedding of `email.lower().strip()`. -/
def pyClean (s : Str) : Str := pyStrip (pyLower s)

/-- The substring after the first `'@'` — the `domain` component of
`_, _, domain = email.partition("@")`. -/
def afterFirstAt : Str → Str
  | [] => []
  | c :: rest => if c = '@' then rest else afterFirstAt rest

/-- The fixed allow-list of academic suffixes from `extract_edu_domain`. -/
def ALLOWED_SUFFIXES : List Str :=
  [".edu".data, ".ac.uk".data, ".ethz.ch".data, ".epfl.ch".data, ".utoronto.ca".data]

/-- The `domain.endswith(...)` disjunction in `extract_edu_domain`. -/
def endsWithAllowed (domain : Str) : Bool :=
  ALLOWED_SUFFIXES.any (fun suf => List.isSuffixOf suf domain)

/-- Embedding of `extract_edu_domain` (collect.py lines 47-59). -/
def extract_edu_domain (email : Str) : Option Str :=
  let e := pyClean email
  if !(e.contains '@') then none
  else
    let domain := afterFirstAt e
    if domain.isEmpty || domain.contains '@' then none
    else if endsWithAllowed domain then some domain
    else none

/-- Ordered-association-list lookup, modeling `k in d` / `d[k]`. -/
def alLookup {α : Type} : List (Str × α) → Str → Option α
  | [], _ => none
  | (k, v) :: rest, key => if k = key then some v else alLookup rest key

/-- Ordered-association-list assignment `d[k] = v` (update in place or append). -/
def alSet {α : Type} (l : List (Str × α)) (k : Str) (v : α) : List (Str × α) :=
  match l with
  | [] => [(k, v)]
  | (k0, v0) :: rest => if k0 = k then (k, v) :: rest else (k0, v0) :: alSet rest k v

/-- The `defaultdict` pattern `d[k] = f(d[k])` where a missing key first gets
the default value `dflt`. -/
def alUpdate {α : Type} (l : List (Str × α)) (k : Str) (dflt : α) (f : α → α) :
    List (Str × α) :=
  match l with
  | [] => [(k, f dflt)]
  | (k0, v) :: rest => if k0 = k then (k, f v) :: rest else (k0, v) :: alUpdate rest k dflt f

/-- Embedding of `resolve_email` (collect.py lines 75-80): alias table first,
then suffix extraction. -/
def resolve_email (email : Str) (aliases : List (Str × Str)) : Option Str :=
  let e := pyClean email
  match alLookup aliases e with
  | some d => some d
  | none => extract_edu_domain e

/-- Embedding of `domain.split(".")` for the single-character separator. -/
def splitDot : Str → List Str
  | [] => [[]]
  | c :: rest =>
    if c = '.' then [] :: splitDot rest
    else
      match splitDot rest with
      | [] => [[c]]
      | s :: ss => (c :: s) :: ss

/-- Embedding of `".".join(parts)`. -/
def joinDot : List Str → Str
  | [] => []
  | [s] => s
  | s :: rest => s ++ '.' :: joinDot rest

/-- The `for i in range(len(parts) - 1, 0, -1)` loop of `normalize_domain`:
the argument counts down from `len(parts) - 1` to `1`; the candidate tried at
argument `i + 1` is `".".join(parts[i+1:])`. -/
def normLoop (parts : List Str) (m : List (Str × Str)) : Nat → Option Str
  | 0 => none
  | i + 1 =>
    if (alLookup m (joinDot (parts.drop (i + 1)))).isSome then
      some (joinDot (parts.drop (i + 1)))
    else normLoop parts m i

/-- Embedding of `normalize_domain` (collect.py lines 62-72). -/
def normalize_domain (domain : Str) (m : List (Str × Str)) : Str :=
  match normLoop (splitDot domain) m ((splitDot domain).length - 1) with
  | some c => c
  | none => domain

/-- The dot-separated suffixes of a domain, shortest (apex) first, as described
by the specification of the domain normalizer: try the last 1 label, then the
last 2, and so on up to the whole domain. -/
def labelSuffixes (domain : Str) : List Str :=
  (List.range (splitDot domain).length).reverse.map
    (fun i => joinDot ((splitDot domain).drop i))

/-- The `.edu` domains observed for one author name, normalized and
deduplicated — the `edu_domains` set of `build_auto_aliases`. -/
def eduDomainsOf (emails : List Str) (m : List (Str × Str)) : List Str :=
  (emails.filterMap (fun e => (extract_edu_domain e).map (fun d => normalize_domain d m))).dedup

/-- The `non_edu_emails` set of `build_auto_aliases`. -/
def nonEduOf (emails : List Str) : List Str :=
  emails.filter (fun e => (extract_edu_domain e).isNone)

/-- The per-author-name body of `build_auto_aliases` (collect.py lines
120-139): if the author's resolving emails normalize to exactly one domain,
map every non-resolving email to it; otherwise contribute nothing. -/
def autoAliasesForName (emails : List Str) (m : List (Str × Str)) : List (Str × Str) :=
  match eduDomainsOf emails m with
  | [d] => (nonEduOf emails).map (fun e => (e, d))
  | _ => []

/-- Embedding of `build_auto_aliases`: fold the per-name contributions into
one alias dict. -/
def build_auto_aliases (nameEmails : List (Str × List Str)) (m : List (Str × Str)) :
    List (Str × Str) :=
  nameEmails.foldl
    (fun acc p => (autoAliasesForName p.2 m).foldl (fun a kv => alSet a kv.1 kv.2) acc) []

/-- Embedding of `aliases = {**auto_aliases, **manual_aliases}`: manual
entries override auto-discovered ones. -/
def mergeAliases (auto manual : List (Str × Str)) : List (Str × Str) :=
  manual.foldl (fun acc p => alSet acc p.1 p.2) auto

/-- Declared author-name arising from the spec's resolving-email condition:
some email of the name extracts to a domain normalizing to `d`. -/
def ArisingDomain (emails : List Str) (m : List (Str × Str)) (d : Str) : Prop :=
  ∃ e ∈ emails, ∃ d0, extract_edu_domain e = some d0 ∧ normalize_domain d0 m = d

/-- The spec's "resolving emails normalize to exactly one distinct domain". -/
def UniqueAcademicDomain (emails : List Str) (m : List (Str × Str)) (d : Str) : Prop :=
  ArisingDomain emails m d ∧ ∀ x, ArisingDomain emails m x → x = d

/-- Repository importance `2 * stars + total_commits` (collect.py lines 272 and 325). -/
def repoImportance (stars totalCommits : ℕ) : ℕ := 2 * stars + totalCommits

/-- The headline weight `repo_importance / (k + 1)` of the commit at zero-based
position `k` (collect.py line 279). -/
def primary_weight (stars totalCommits k : ℕ) : ℚ :=
  ((repoImportance stars totalCommits : ℕ) : ℚ) / ((k : ℚ) + 1)

/-- The Nth harmonic number, the spec's bound for the total decay mass. -/
def harmonicNumber (N : ℕ) : ℚ := ∑ k ∈ Finset.range N, (1 : ℚ) / ((k : ℚ) + 1)

/-- The exactly-representable per-position decay accumulators
(`harmonic`, `linear`, `uniform` channels of `decay_sums`). -/
structure DecaySums where
  harmonic : ℚ
  linear : ℚ
  uniform : ℚ
deriving DecidableEq

def zeroDecay : DecaySums := ⟨0, 0, 0⟩

/-- Per-repository per-contributor record (the `repo_contributors` defaultdict
entry of collect.py lines 243-246). -/
structure Contributor where
  commits : ℕ
  score : ℚ
  positions : List ℚ
  domain : Str
  decay : DecaySums
deriving DecidableEq

/-- The default-factory value of the `repo_contributors` defaultdict. -/
def newContributor : Contributor := ⟨0, 0, [], [], zeroDecay⟩

/-- The accumulators touched while scoring one repository: per-university
weighted score, commit count and decay sums, and per-contributor records. -/
structure ScoreState where
  uniWeighted : List (Str × ℚ)
  uniCommits : List (Str × ℕ)
  uniDecay : List (Str × DecaySums)
  contributors : List (Str × Contributor)
deriving DecidableEq

def initState : ScoreState := ⟨[], [], [], []⟩

/-- The body of the commit loop (collect.py lines 274-311) for the commit at
position `k` authored by `(name, email)`. -/
def scoreStep (uniMap aliases : List (Str × Str)) (importance totalCommits : ℕ)
    (st : ScoreState) (k : ℕ) (name email : Str) : ScoreState :=
  match resolve_email email aliases with
  | none => st
  | some d0 =>
    let domain := normalize_domain d0 uniMap
    let weight : ℚ := (importance : ℚ) / ((k : ℚ) + 1)
    let dH : ℚ := 1 / ((k : ℚ) + 1)
    let dL : ℚ := ((totalCommits : ℚ) - (k : ℚ)) / (totalCommits : ℚ)
    let dU : ℚ := 1
    let pos : ℚ := (k : ℚ) / (totalCommits : ℚ)
    { uniWeighted := alUpdate st.uniWeighted domain 0 (fun w => w + weight)
      uniCommits := alUpdate st.uniCommits domain 0 (fun n => n + 1)
      uniDecay := alUpdate st.uniDecay domain zeroDecay
        (fun s => ⟨s.harmonic + dH, s.linear + dL, s.uniform + dU⟩)
      contributors := alUpdate st.contributors name newContributor
        (fun c => ⟨c.commits + 1, c.score + weight, c.positions ++ [pos], domain,
          ⟨c.decay.harmonic + dH, c.decay.linear + dL, c.decay.uniform + dU⟩⟩) }

/-- Embedding of Python's `enumerate(xs, i)`. -/
def enumerateFrom {α : Type} (i : ℕ) : List α → List (ℕ × α)
  | [] => []
  | a :: rest => (i, a) :: enumerateFrom (i + 1) rest

/-- Scoring one repository's chronological commit list (collect.py lines
262-311): `total_commits = len(commits_list)`,
`repo_importance = 2 * stars + total_commits`, then the enumerated commit loop. -/
def scoreRepo (uniMap aliases : List (Str × Str)) (stars : ℕ)
    (commits : List (Str × Str)) : ScoreState :=
  (enumerateFrom 0 commits).foldl
    (fun st kc =>
      scoreStep uniMap aliases (repoImportance stars commits.length) commits.length
        st kc.1 kc.2.1 kc.2.2)
    initState

/-- One row of a university's per-repository breakdown, as read off the
accumulators in the aggregation loop (collect.py lines 317-335). -/
structure RepoRow where
  slug : Str
  weight : ℚ
  stars : ℕ
  totalCommits : ℕ
deriving DecidableEq

/-- The capped per-repository score `min(repo_weights[slug], repo_importance)`
(collect.py line 326). -/
def cappedScore (r : RepoRow) : ℚ :=
  min r.weight ((repoImportance r.stars r.totalCommits : ℕ) : ℚ)

/-- The aggregation loop visits a university's repositories sorted by
descending accumulated weight (collect.py line 321). -/
def sortRows (rows : List RepoRow) : List RepoRow :=
  rows.mergeSort (fun a b => decide (b.weight ≤ a.weight))

/-- The `repo_details` list: `(slug, score)` with the capped score, in
descending-weight order. -/
def universityRepoDetails (rows : List RepoRow) : List (Str × ℚ) :=
  (sortRows rows).map (fun r => (r.slug, cappedScore r))

/-- The `total_score` accumulation of the aggregation loop
(`total_score += score`, collect.py line 327). -/
def universityTotalScore (rows : List RepoRow) : ℚ :=
  (sortRows rows).foldl (fun acc r => acc + cappedScore r) 0

/-- A university entry as sorted and ranked (collect.py lines 336-348). -/
structure Uni where
  domain : Str
  uniName : Str
  score : ℚ
  reposContributed : ℕ
deriving DecidableEq

/-- `universities.sort(key=lambda u: -u["score"])`: stable sort by
non-increasing score. -/
def sortUniversities (us : List Uni) : List Uni :=
  us.mergeSort (fun a b => decide (b.score ≤ a.score))

/-- The rank-assignment loop `for i, u in enumerate(universities, 1)`. -/
def addRanks : List Uni → ℕ → List (Uni × ℕ)
  | [], _ => []
  | u :: rest, i => (u, i) :: addRanks rest (i + 1)

/-- The ranked `universities` array of the output document. -/
def rankedUniversities (us : List Uni) : List (Uni × ℕ) :=
  addRanks (sortUniversities us) 1

/-- Python's `min(xs)` on a list (only ever applied to non-empty lists). -/
def listMin : List ℚ → ℚ
  | [] => 0
  | x :: xs => xs.foldl min x

/-- Python's `max(xs)` on a list (only ever applied to non-empty lists). -/
def listMax : List ℚ → ℚ
  | [] => 0
  | x :: xs => xs.foldl max x

/-- `sorted(positions)`. -/
def sortPositions (ps : List ℚ) : List ℚ := ps.mergeSort (fun a b => decide (a ≤ b))

/-- `sorted(positions)[len(positions) // 2] if positions else 0.5`
(collect.py line 362). -/
def medianPos (ps : List ℚ) : ℚ :=
  if ps.isEmpty then 1 / 2 else (sortPositions ps).getD (ps.length / 2) 0

/-- `min(positions) * 100 if positions else 0` (collect.py line 369; the
1-decimal display rounding is not modeled). -/
def firstCommitPct (ps : List ℚ) : ℚ := if ps.isEmpty then 0 else listMin ps * 100

/-- `max(positions) * 100 if positions else 100` (collect.py line 371). -/
def lastCommitPct (ps : List ℚ) : ℚ := if ps.isEmpty then 100 else listMax ps * 100

/-- A contributor entry of a project's output (collect.py lines 363-373). -/
structure ContribOut where
  cname : Str
  university : Str
  domain : Str
  commits : ℕ
  score : ℚ
  firstPct : ℚ
  medianPct : ℚ
  lastPct : ℚ
deriving DecidableEq

/-- Building one output entry from a `(name, contributor)` record. -/
def mkContribOut (uniMap : List (Str × Str)) (nc : Str × Contributor) : ContribOut :=
  { cname := nc.1
    university := (alLookup uniMap nc.2.domain).getD nc.2.domain
    domain := nc.2.domain
    commits := nc.2.commits
    score := nc.2.score
    firstPct := firstCommitPct nc.2.positions
    medianPct := medianPos nc.2.positions
    lastPct := lastCommitPct nc.2.positions }

/-- `sorted(contributors.items(), key=lambda x: -x[1]["score"])` (line 358). -/
def sortContributors (cs : List (Str × Contributor)) : List (Str × Contributor) :=
  cs.mergeSort (fun a b => decide (b.2.score ≤ a.2.score))

/-- The full `top_contributors` list, before truncation. -/
def topContributors (uniMap : List (Str × Str)) (cs : List (Str × Contributor)) :
    List ContribOut :=
  (sortContributors cs).map (mkContribOut uniMap)

/-- `project_total_score = sum(c["score"] for c in top_contributors)`
(collect.py line 374) — computed over the full list. -/
def projectTotalScore (uniMap : List (Str × Str)) (cs : List (Str × Contributor)) : ℚ :=
  ((topContributors uniMap cs).map (fun c => c.score)).sum

/-- `"contributors": top_contributors[:50]` (collect.py line 381). -/
def exposedContributors (uniMap : List (Str × Str)) (cs : List (Str × Contributor)) :
    List ContribOut :=
  (topContributors uniMap cs).take 50

/-- The worked scoring example of the spec: a repository with two commits and
zero stars, first commit by `a@mit.edu`, second by `b@gmail.com`. -/
def exCommits : List (Str × Str) :=
  [("a".data, "a@mit.edu".data), ("b".data, "b@gmail.com".data)]

/-- The alias-discovery example of the spec: author "Alice" with one academic
and one non-academic address. -/
def exAliasEmails : List Str := ["alice@mit.edu".data, "alice@gmail.com".data]

/-- The invariant every contributor record created during scoring satisfies:
at least one commit, and a non-empty position list with entries in `[0, 1)`. -/
def ValidContributor (c : Contributor) : Prop :=
  1 ≤ c.commits ∧ c.positions ≠ [] ∧ ∀ q ∈ c.positions, 0 ≤ q ∧ q < 1

/-- A sample university-aggregation row used to witness the capping facts. -/
def exRow : RepoRow := ⟨"demo/repo".data, 5, 1, 1⟩

/-! ### Helper lemmas: characters and cleaning -/

theorem char_toNat_ofNat {n : ℕ} (h : n.isValidChar) : (Char.ofNat n).toNat = n := by
  simp [Char.ofNat, dif_pos h, Char.ofNatAux, Char.toNat, UInt32.toNat, BitVec.toNat_ofNatLt]

theorem toLower_toNat_upper {c : Char} (h1 : 65 ≤ c.toNat) (h2 : c.toNat ≤ 90) :
    (Char.toLower c).toNat = c.toNat + 32 := by
  have hv : Nat.isValidChar (c.toNat + 32) := Or.inl (by omega)
  have hc : c.toNat ≥ 65 ∧ c.toNat ≤ 90 := ⟨h1, h2⟩
  rw [Char.toLower, if_pos hc]
  exact char_toNat_ofNat hv

theorem toLower_eq_self {c : Char} (h : ¬(c.toNat ≥ 65 ∧ c.toNat ≤ 90)) :
    Char.toLower c = c := by
  rw [Char.toLower, if_neg h]

theorem toLower_idem (c : Char) : Char.toLower (Char.toLower c) = Char.toLower c := by
  by_cases h : c.toNat ≥ 65 ∧ c.toNat ≤ 90
  · have ht := toLower_toNat_upper h.1 h.2
    apply toLower_eq_self
    omega
  · simp only [toLower_eq_self h]

theorem isPySpace_toLower (c : Char) : isPySpace (Char.toLower c) = isPySpace c := by
  by_cases h : c.toNat ≥ 65 ∧ c.toNat ≤ 90
  · obtain ⟨h1, h2⟩ := h
    have ht := toLower_toNat_upper h1 h2
    have l1 : isPySpace (Char.toLower c) = false := by
      simp only [isPySpace, ht, Bool.or_eq_false_iff, decide_eq_false_iff_not]
      omega
    have l2 : isPySpace c = false := by
      simp only [isPySpace, Bool.or_eq_false_iff, decide_eq_false_iff_not]
      omega
    rw [l1, l2]
  · rw [toLower_eq_self h]

theorem pyLower_idem (s : Str) : pyLower (pyLower s) = pyLower s := by
  simp only [pyLower, List.map_map]
  exact List.map_congr_left (fun a _ => toLower_idem a)

theorem pyStrip_pyLower_comm (s : Str) : pyStrip (pyLower s) = pyLower (pyStrip s) := by
  have hp : isPySpace ∘ Char.toLower = isPySpace := funext isPySpace_toLower
  simp [pyStrip, pyLower, List.dropWhile_map, ← List.map_reverse, hp]

theorem pyStrip_as_rdropWhile (s : Str) :
    pyStrip s = List.rdropWhile isPySpace (s.dropWhile isPySpace) := by
  simp [pyStrip, List.rdropWhile]

theorem dropWhile_of_prefix_of_dropWhile_self {p : Char → Bool} {X Y : Str}
    (hX : X.dropWhile p = X) (hY : List.IsPrefix Y X) : Y.dropWhile p = Y := by
  rcases Y with _ | ⟨a, t⟩
  · simp
  · obtain ⟨r, hr⟩ := hY
    have hXa : X = a :: (t ++ r) := by rw [← hr]; simp
    have hpa : p a = false := by
      by_contra hpa
      have hpa' : p a = true := by revert hpa; cases p a <;> simp
      rw [hXa, List.dropWhile_cons, if_pos hpa'] at hX
      have hlen := (List.dropWhile_sublist (l := t ++ r) p).length_le
      have hba : (t ++ r).length = t.length + r.length := by simp
      have := congrArg List.length hX
      simp at this
      omega
    rw [List.dropWhile_cons, hpa]
    simp

theorem pyStrip_idem (s : Str) : pyStrip (pyStrip s) = pyStrip s := by
  rw [pyStrip_as_rdropWhile s, pyStrip_as_rdropWhile]
  have hpre := List.rdropWhile_prefix isPySpace (s.dropWhile isPySpace)
  have h1 : (List.rdropWhile isPySpace (s.dropWhile isPySpace)).dropWhile isPySpace
      = List.rdropWhile isPySpace (s.dropWhile isPySpace) :=
    dropWhile_of_prefix_of_dropWhile_self (List.dropWhile_idempotent isPySpace s) hpre
  rw [h1, List.rdropWhile_idempotent]

theorem pyClean_idem (s : Str) : pyClean (pyClean s) = pyClean s := by
  show pyStrip (pyLower (pyStrip (pyLower s))) = pyStrip (pyLower s)
  rw [← pyStrip_pyLower_comm, pyLower_idem, pyStrip_idem]

/-! ### C3: resolver guard conditions -/

/-- C3. `resolve_email` returns `none` unless the cleaned email is an alias
key or the part after the first `'@'` ends in an allowed academic suffix; in
particular (when the cleaned email is not an alias key) it returns `none`
whenever there is no `'@'`, the domain part is empty, or the domain part
contains another `'@'`. -/
theorem resolve_email_none_unless (email : Str) (aliases : List (Str × Str)) :
    ((resolve_email email aliases).isSome = true →
      (alLookup aliases (pyClean email)).isSome = true ∨
        endsWithAllowed (afterFirstAt (pyClean email)) = true) ∧
    (alLookup aliases (pyClean email) = none →
      ((pyClean email).contains '@' = false ∨
        afterFirstAt (pyClean email) = [] ∨
        (afterFirstAt (pyClean email)).contains '@' = true) →
      resolve_email email aliases = none) := by
  have hx : extract_edu_domain (pyClean email) =
      (if !((pyClean email).contains '@') then none
       else if (afterFirstAt (pyClean email)).isEmpty
           || (afterFirstAt (pyClean email)).contains '@' then none
       else if endsWithAllowed (afterFirstAt (pyClean email)) then
         some (afterFirstAt (pyClean email))
       else none) := by
    simp only [extract_edu_domain, pyClean_idem]
  constructor
  · intro hsome
    by_cases hal : (alLookup aliases (pyClean email)).isSome = true
    · exact Or.inl hal
    · right
      have haln : alLookup aliases (pyClean email) = none := by
        revert hal; cases alLookup aliases (pyClean email) <;> simp
      rw [resolve_email] at hsome
      rw [haln] at hsome
      simp only at hsome
      rw [hx] at hsome
      by_cases h1 : (pyClean email).contains '@'
      · simp only [h1, Bool.not_true, Bool.false_eq_true, if_false] at hsome
        by_cases h2 : ((afterFirstAt (pyClean email)).isEmpty
            || (afterFirstAt (pyClean email)).contains '@') = true
        · rw [if_pos h2] at hsome
          simp at hsome
        · rw [if_neg h2] at hsome
          by_cases h3 : endsWithAllowed (afterFirstAt (pyClean email)) = true
          · exact h3
          · rw [if_neg h3] at hsome
            simp at hsome
      · have h1' : (pyClean email).contains '@' = false := by
          revert h1; cases (pyClean email).contains '@' <;> simp
        rw [h1'] at hsome
        simp at hsome
  · intro haln hdegen
    rw [resolve_email, haln]
    simp only
    rw [hx]
    rcases hdegen with h | h | h
    · rw [h]
      simp
    · by_cases h1 : (pyClean email).contains '@'
      · simp only [h1, Bool.not_true, Bool.false_eq_true, if_false]
        rw [h]
        simp
      · have h1' : (pyClean email).contains '@' = false := by
          revert h1; cases (pyClean email).contains '@' <;> simp
        rw [h1']
        simp
    · by_cases h1 : (pyClean email).contains '@'
      · simp only [h1, Bool.not_true, Bool.false_eq_true, if_false]
        rw [h]
        simp
      · have h1' : (pyClean email).contains '@' = false := by
          revert h1; cases (pyClean email).contains '@' <;> simp
        rw [h1']
        simp

/-- Witness for C3 at concrete inputs: a plain `.edu` address takes the
suffix branch, and an address without `'@'` resolves to `none`. -/
theorem resolve_email_none_unless_w :
    ((alLookup ([] : List (Str × Str)) (pyClean "x@mit.edu".data)).isSome = true ∨
      endsWithAllowed (afterFirstAt (pyClean "x@mit.edu".data)) = true) ∧
    resolve_email "nodomain".data [] = none :=
  ⟨(resolve_email_none_unless "x@mit.edu".data []).1 (by decide),
   (resolve_email_none_unless "nodomain".data []).2 (by decide) (by decide)⟩

/-! ### Helper lemmas: splitting and joining on dots -/

theorem splitDot_ne_nil (s : Str) : splitDot s ≠ [] := by
  induction s with
  | nil => simp [splitDot]
  | cons c rest ih =>
    rw [splitDot]
    by_cases hc : c = '.'
    · simp [hc]
    · rw [if_neg hc]
      rcases h : splitDot rest with _ | ⟨a, t⟩
      · simp
      · simp

theorem joinDot_cons (s : Str) (ss : List Str) :
    joinDot (s :: ss) = s ++ (if ss.isEmpty then [] else '.' :: joinDot ss) := by
  rcases ss with _ | ⟨a, t⟩
  · simp [joinDot]
  · rfl

theorem joinDot_splitDot (s : Str) : joinDot (splitDot s) = s := by
  induction s with
  | nil => rfl
  | cons c rest ih =>
    rw [splitDot]
    by_cases hc : c = '.'
    · rw [if_pos hc, joinDot_cons]
      have hne : (splitDot rest).isEmpty = false := by
        rcases h : splitDot rest with _ | _
        · exact absurd h (splitDot_ne_nil rest)
        · rfl
      rw [hne]
      simp [ih, hc]
    · rw [if_neg hc]
      rcases h : splitDot rest with _ | ⟨a, t⟩
      · exact absurd h (splitDot_ne_nil rest)
      · rw [h] at ih
        show joinDot ((c :: a) :: t) = c :: rest
        rw [joinDot_cons]
        rw [joinDot_cons] at ih
        simp only [List.cons_append]
        rw [ih]

theorem not_dot_mem_splitDot (s : Str) : ∀ l ∈ splitDot s, '.' ∉ l := by
  induction s with
  | nil =>
    intro l hl
    rw [splitDot] at hl
    simp at hl
    simp [hl]
  | cons c rest ih =>
    intro l hl
    rw [splitDot] at hl
    by_cases hc : c = '.'
    · rw [if_pos hc] at hl
      rcases List.mem_cons.mp hl with h | h
      · simp [h]
      · exact ih l h
    · rw [if_neg hc] at hl
      rcases h : splitDot rest with _ | ⟨a, t⟩
      · exact absurd h (splitDot_ne_nil rest)
      · rw [h] at hl
        rcases List.mem_cons.mp hl with h2 | h2
        · have ha : '.' ∉ a := ih a (h ▸ List.mem_cons_self a t)
          rw [h2]
          intro hm
          rcases List.mem_cons.mp hm with h3 | h3
          · exact hc h3.symm
          · exact ha h3
        · exact ih l (h ▸ List.mem_cons_of_mem a h2)

theorem splitDot_of_no_dot {s : Str} (h : '.' ∉ s) : splitDot s = [s] := by
  induction s with
  | nil => rfl
  | cons c rest ih =>
    have hc : ¬(c = '.') := fun e => h (e ▸ List.mem_cons_self c rest)
    have hr : splitDot rest = [rest] := ih (fun hm => h (List.mem_cons_of_mem c hm))
    rw [splitDot, if_neg hc, hr]

theorem splitDot_append {s : Str} (h : '.' ∉ s) (X : Str) :
    splitDot (s ++ '.' :: X) = s :: splitDot X := by
  induction s with
  | nil => simp [splitDot]
  | cons c s2 ih =>
    have hc : ¬(c = '.') := fun e => h (e ▸ List.mem_cons_self c s2)
    have hr := ih (fun hm => h (List.mem_cons_of_mem c hm))
    rw [List.cons_append, splitDot, if_neg hc, hr]

theorem splitDot_joinDot {L : List Str} (h : ∀ l ∈ L, '.' ∉ l) (hL : L ≠ []) :
    splitDot (joinDot L) = L := by
  induction L with
  | nil => exact absurd rfl hL
  | cons s ss ih =>
    rcases ss with _ | ⟨a, t⟩
    · exact splitDot_of_no_dot (h s (List.mem_cons_self s []))
    · show splitDot (s ++ '.' :: joinDot (a :: t)) = s :: a :: t
      rw [splitDot_append (h s (List.mem_cons_self s (a :: t))),
        ih (fun l hl => h l (List.mem_cons_of_mem s hl)) (by simp)]

/-! ### Helper lemmas: the normalize loop -/

theorem normLoop_eq_none_iff (parts : List Str) (m : List (Str × Str)) (n : ℕ) :
    normLoop parts m n = none ↔
      ∀ i < n, (alLookup m (joinDot (parts.drop (i + 1)))).isSome = false := by
  induction n with
  | zero => simp [normLoop]
  | succ k ih =>
    rw [normLoop]
    by_cases hk : (alLookup m (joinDot (parts.drop (k + 1)))).isSome = true
    · rw [if_pos hk]
      constructor
      · intro h; exact absurd h (by simp)
      · intro h
        have := h k (by omega)
        rw [hk] at this
        exact absurd this (by simp)
    · have hk' : (alLookup m (joinDot (parts.drop (k + 1)))).isSome = false := by
        revert hk; cases (alLookup m (joinDot (parts.drop (k + 1)))).isSome <;> simp
      rw [if_neg (by rw [hk']; simp)]
      rw [ih]
      constructor
      · intro h i hi
        by_cases he : i = k
        · rw [he]; exact hk'
        · exact h i (by omega)
      · intro h i hi
        exact h i (by omega)

theorem normLoop_eq_some_iff (parts : List Str) (m : List (Str × Str)) (n : ℕ) (c : Str) :
    normLoop parts m n = some c ↔
      ∃ i, i < n ∧ c = joinDot (parts.drop (i + 1)) ∧
        (alLookup m (joinDot (parts.drop (i + 1)))).isSome = true ∧
        ∀ j < n, i < j → (alLookup m (joinDot (parts.drop (j + 1)))).isSome = false := by
  induction n with
  | zero => simp [normLoop]
  | succ k ih =>
    rw [normLoop]
    by_cases hk : (alLookup m (joinDot (parts.drop (k + 1)))).isSome = true
    · rw [if_pos hk]
      constructor
      · intro h
        refine ⟨k, by omega, (Option.some.injEq _ _).mp h.symm, hk, ?_⟩
        intro j hj hkj
        omega
      · rintro ⟨i, hi, hc, hsome, hafter⟩
        by_cases he : i = k
        · rw [he] at hc
          rw [hc]
        · have := hafter k (by omega) (by omega)
          rw [hk] at this
          exact absurd this (by simp)
    · have hk' : (alLookup m (joinDot (parts.drop (k + 1)))).isSome = false := by
        revert hk; cases (alLookup m (joinDot (parts.drop (k + 1)))).isSome <;> simp
      rw [if_neg (by rw [hk']; simp)]
      rw [ih]
      constructor
      · rintro ⟨i, hi, hc, hsome, hafter⟩
        refine ⟨i, by omega, hc, hsome, ?_⟩
        intro j hj hij
        by_cases he : j = k
        · rw [he]; exact hk'
        · exact hafter j (by omega) hij
      · rintro ⟨i, hi, hc, hsome, hafter⟩
        have hik : i ≠ k := by
          intro he
          rw [he, hk'] at hsome
          exact absurd hsome (by simp)
        exact ⟨i, by omega, hc, hsome, fun j hj hij => hafter j (by omega) hij⟩

theorem normLoop_as_find (parts : List Str) (m : List (Str × Str)) (k : ℕ) :
    normLoop parts m k =
      ((List.range k).reverse.map (fun j => joinDot (parts.drop (j + 1)))).find?
        (fun s => (alLookup m s).isSome) := by
  induction k with
  | zero => simp [normLoop]
  | succ n ih =>
    rw [normLoop, List.range_succ]
    simp only [List.reverse_append, List.reverse_cons, List.reverse_nil, List.nil_append,
      List.singleton_append, List.map_cons]
    by_cases h : (alLookup m (joinDot (parts.drop (n + 1)))).isSome = true
    · rw [if_pos h, List.find?_cons]
      simp only [h]
    · have h' : (alLookup m (joinDot (parts.drop (n + 1)))).isSome = false := by
        revert h; cases (alLookup m (joinDot (parts.drop (n + 1)))).isSome <;> simp
      rw [if_neg (by rw [h']; simp), List.find?_cons]
      simp only [h']
      exact ih

/-- C6. `normalize_domain` returns the shortest dot-separated suffix of the
domain that is a key of the institution map — trying the last label first,
then the last two, and so on — and the domain itself unchanged when no suffix
is a key. -/
theorem normalize_domain_eq_shortest_suffix (d : Str) (m : List (Str × Str)) :
    normalize_domain d m =
      ((labelSuffixes d).find? (fun s => (alLookup m s).isSome)).getD d := by
  obtain ⟨n, hn⟩ : ∃ n, (splitDot d).length = n + 1 := by
    rcases h : splitDot d with _ | ⟨a, t⟩
    · exact absurd h (splitDot_ne_nil d)
    · exact ⟨t.length, by simp⟩
  have hsuf : labelSuffixes d =
      ((List.range n).reverse.map (fun j => joinDot ((splitDot d).drop (j + 1)))) ++ [d] := by
    rw [labelSuffixes, hn, List.range_succ_eq_map]
    simp only [List.reverse_cons, List.map_append, List.map_map, List.map_reverse]
    congr 1
    simp [joinDot_splitDot]
  rw [normalize_domain, hn]
  simp only [Nat.add_sub_cancel]
  rw [normLoop_as_find]
  rw [hsuf, List.find?_append]
  rcases hfind : ((List.range n).reverse.map
      (fun j => joinDot ((splitDot d).drop (j + 1)))).find?
        (fun s => (alLookup m s).isSome) with _ | c
  · simp only [Option.none_or]
    rcases hd : (alLookup m d).isSome with _ | _
    · simp [List.find?, hd]
    · simp [List.find?, hd]
  · simp

/-- C7. `normalize_domain` is idempotent. -/
theorem normalize_domain_idem (d : Str) (m : List (Str × Str)) :
    normalize_domain (normalize_domain d m) m = normalize_domain d m := by
  rcases h : normLoop (splitDot d) m ((splitDot d).length - 1) with _ | c
  · have hd : normalize_domain d m = d := by rw [normalize_domain, h]
    rw [hd]
    exact hd
  · have hd : normalize_domain d m = c := by rw [normalize_domain, h]
    rw [hd]
    obtain ⟨i, hi, hc, hsome, hafter⟩ := (normLoop_eq_some_iff _ _ _ _).mp h
    have hndot : ∀ l ∈ (splitDot d).drop (i + 1), '.' ∉ l :=
      fun l hl => not_dot_mem_splitDot d l (List.drop_subset _ _ hl)
    have hlen : ((splitDot d).drop (i + 1)).length = (splitDot d).length - (i + 1) :=
      List.length_drop _ _
    have hne : (splitDot d).drop (i + 1) ≠ [] := by
      intro he
      rw [he] at hlen
      simp at hlen
      omega
    have hsplit : splitDot c = (splitDot d).drop (i + 1) := by
      rw [hc]
      exact splitDot_joinDot hndot hne
    rw [normalize_domain, hsplit]
    have hnone : normLoop ((splitDot d).drop (i + 1)) m
        (((splitDot d).drop (i + 1)).length - 1) = none := by
      rw [normLoop_eq_none_iff]
      intro t ht
      rw [List.drop_drop]
      have harith : i + 1 + (t + 1) = (i + t + 1) + 1 := by omega
      rw [harith]
      refine hafter (i + t + 1) ?_ (by omega)
      rw [hlen] at ht
      omega
    rw [hnone]

/-! ### Helper lemmas: alias discovery -/

theorem alLookup_map_pair (ne : List Str) (d x : Str) :
    alLookup (ne.map (fun e => (e, d))) x = if x ∈ ne then some d else none := by
  induction ne with
  | nil => simp [alLookup]
  | cons a t ih =>
    rw [List.map_cons, alLookup]
    by_cases hx : a = x
    · rw [if_pos hx, if_pos (by rw [← hx]; exact List.mem_cons_self a t)]
    · rw [if_neg hx, ih]
      by_cases hm : x ∈ t
      · rw [if_pos hm, if_pos (List.mem_cons_of_mem a hm)]
      · rw [if_neg hm, if_neg (fun h => by
          rcases List.mem_cons.mp h with h1 | h1
          · exact hx h1.symm
          · exact hm h1)]

theorem mem_eduDomainsOf (emails : List Str) (m : List (Str × Str)) (x : Str) :
    x ∈ eduDomainsOf emails m ↔ ArisingDomain emails m x := by
  rw [eduDomainsOf, List.mem_dedup, List.mem_filterMap]
  constructor
  · rintro ⟨e, he, hfe⟩
    rcases Option.map_eq_some'.mp hfe with ⟨d0, hd0, hnorm⟩
    exact ⟨e, he, d0, hd0, hnorm⟩
  · rintro ⟨e, he, d0, hd0, hnorm⟩
    exact ⟨e, he, by rw [hd0]; simp [hnorm]⟩

theorem mem_nonEduOf (emails : List Str) (e : Str) :
    e ∈ nonEduOf emails ↔ e ∈ emails ∧ extract_edu_domain e = none := by
  rw [nonEduOf, List.mem_filter]
  simp [Option.isNone_iff_eq_none]

/-! ### C4: alias discovery characterization -/

/-- C4. For an author name with email set `emails`, the per-name alias
discovery maps a non-resolving email `e` to a domain if and only if the
name's resolving emails normalize to exactly one distinct domain (and then
`e` is mapped exactly to that domain); a name with several distinct academic
domains contributes nothing. -/
theorem auto_alias_characterization (m : List (Str × Str)) (emails : List Str) (e : Str)
    (he : e ∈ emails) :
    ((alLookup (autoAliasesForName emails m) e).isSome = true ↔
      extract_edu_domain e = none ∧ ∃ d, UniqueAcademicDomain emails m d) ∧
    (∀ d, UniqueAcademicDomain emails m d → extract_edu_domain e = none →
      alLookup (autoAliasesForName emails m) e = some d) := by
  rw [autoAliasesForName]
  rcases hed : eduDomainsOf emails m with _ | ⟨d1, t⟩
  · constructor
    · rw [alLookup]
      simp only [Option.isSome_none, Bool.false_eq_true, false_iff]
      rintro ⟨hex, d, hu, hall⟩
      have : d ∈ eduDomainsOf emails m := (mem_eduDomainsOf emails m d).mpr hu
      rw [hed] at this
      simp at this
    · intro d hu hex
      have : d ∈ eduDomainsOf emails m := (mem_eduDomainsOf emails m d).mpr hu.1
      rw [hed] at this
      simp at this
  · rcases t with _ | ⟨d2, u⟩
    · -- exactly one domain
      have hu1 : UniqueAcademicDomain emails m d1 := by
        constructor
        · exact (mem_eduDomainsOf emails m d1).mp (by rw [hed]; exact List.mem_cons_self d1 [])
        · intro x hx
          have : x ∈ eduDomainsOf emails m := (mem_eduDomainsOf emails m x).mpr hx
          rw [hed] at this
          simpa using this
      constructor
      · rw [alLookup_map_pair]
        constructor
        · intro hs
          by_cases hm : e ∈ nonEduOf emails
          · exact ⟨((mem_nonEduOf emails e).mp hm).2, d1, hu1⟩
          · rw [if_neg hm] at hs
            simp at hs
        · rintro ⟨hex, d, hu⟩
          rw [if_pos ((mem_nonEduOf emails e).mpr ⟨he, hex⟩)]
          simp
      · intro d hu hex
        have hdd : d = d1 := hu1.2 d hu.1
        rw [alLookup_map_pair, if_pos ((mem_nonEduOf emails e).mpr ⟨he, hex⟩), hdd]
    · -- two or more distinct domains: no aliases are contributed
      have hnd : (eduDomainsOf emails m).Nodup := by
        rw [eduDomainsOf]
        exact List.nodup_dedup _
      rw [hed] at hnd
      have hne : d1 ≠ d2 := by
        intro hdd
        rw [hdd] at hnd
        simp at hnd
      have habsurd : ∀ d, UniqueAcademicDomain emails m d → False := by
        intro d hu
        have h1 : ArisingDomain emails m d1 :=
          (mem_eduDomainsOf emails m d1).mp (by rw [hed]; exact List.mem_cons_self _ _)
        have h2 : ArisingDomain emails m d2 :=
          (mem_eduDomainsOf emails m d2).mp
            (by rw [hed]; exact List.mem_cons_of_mem _ (List.mem_cons_self _ _))
        exact hne ((hu.2 d1 h1).trans (hu.2 d2 h2).symm)
      constructor
      · rw [alLookup]
        simp only [Option.isSome_none, Bool.false_eq_true, false_iff]
        rintro ⟨hex, d, hu⟩
        exact habsurd d hu
      · intro d hu hex
        exact absurd hu (fun h => habsurd d h)

/-- Witness for C4 at the spec's "Alice" example: `alice@gmail.com` is mapped,
and it is mapped exactly to `mit.edu`. -/
theorem auto_alias_characterization_w :
    ((alLookup (autoAliasesForName exAliasEmails []) "alice@gmail.com".data).isSome = true ↔
      extract_edu_domain "alice@gmail.com".data = none ∧
        ∃ d, UniqueAcademicDomain exAliasEmails [] d) ∧
    (∀ d, UniqueAcademicDomain exAliasEmails [] d →
      extract_edu_domain "alice@gmail.com".data = none →
      alLookup (autoAliasesForName exAliasEmails []) "alice@gmail.com".data = some d) :=
  auto_alias_characterization [] exAliasEmails "alice@gmail.com".data (by decide)

/-! ### C2: harmonic bound on the primary weights -/

/-- C2. Over any subset of commit positions below `N`, the primary weights sum
to at most `I * H_N`, and a capped accumulated weight never exceeds `I`. -/
theorem primary_weight_subset_bound (stars N : ℕ) (S : Finset ℕ)
    (hS : ∀ k ∈ S, k < N) (A : ℚ) :
    (∑ k ∈ S, primary_weight stars N k) ≤
      ((repoImportance stars N : ℕ) : ℚ) * harmonicNumber N ∧
    min A ((repoImportance stars N : ℕ) : ℚ) ≤ ((repoImportance stars N : ℕ) : ℚ) := by
  constructor
  · have hsub : S ⊆ Finset.range N := fun k hk => Finset.mem_range.mpr (hS k hk)
    have h1 : (∑ k ∈ S, primary_weight stars N k) ≤
        ∑ k ∈ Finset.range N, primary_weight stars N k := by
      apply Finset.sum_le_sum_of_subset_of_nonneg hsub
      intro i _ _
      rw [primary_weight]
      positivity
    have h2 : (∑ k ∈ Finset.range N, primary_weight stars N k) =
        ((repoImportance stars N : ℕ) : ℚ) * harmonicNumber N := by
      rw [harmonicNumber, Finset.mul_sum]
      apply Finset.sum_congr rfl
      intro k _
      rw [primary_weight]
      ring
    rw [← h2]
    exact h1
  · exact min_le_right _ _

/-- Witness for C2 on the two-commit, zero-star repository. -/
theorem primary_weight_subset_bound_w :
    (∀ k ∈ ({0, 1} : Finset ℕ), k < 2) ∧
    ((∑ k ∈ ({0, 1} : Finset ℕ), primary_weight 0 2 k) ≤
      ((repoImportance 0 2 : ℕ) : ℚ) * harmonicNumber 2 ∧
    min (5 : ℚ) ((repoImportance 0 2 : ℕ) : ℚ) ≤ ((repoImportance 0 2 : ℕ) : ℚ)) :=
  ⟨by decide, primary_weight_subset_bound 0 2 {0, 1} (by decide) 5⟩

/-! ### C1: capping and summation in the aggregation loop -/

theorem foldl_add_eq_sum {α : Type} (f : α → ℚ) (l : List α) (a : ℚ) :
    l.foldl (fun acc r => acc + f r) a = a + (l.map f).sum := by
  induction l generalizing a with
  | nil => simp
  | cons x t ih => simp [ih, add_assoc]

/-- C1. Every reported per-repository entry of a university is the capped
score `min(weight, importance)` of one of its rows, hence never exceeds the
repository importance; every row is reported; and the university's total
score is exactly the sum of the reported capped scores. -/
theorem university_score_capped (rows : List RepoRow) :
    (∀ p ∈ universityRepoDetails rows,
      ∃ r, r ∈ rows ∧ p = (r.slug, cappedScore r) ∧
        p.2 ≤ ((repoImportance r.stars r.totalCommits : ℕ) : ℚ)) ∧
    (∀ r ∈ rows, (r.slug, cappedScore r) ∈ universityRepoDetails rows) ∧
    universityTotalScore rows = ((universityRepoDetails rows).map (fun p => p.2)).sum := by
  refine ⟨?_, ?_, ?_⟩
  · intro p hp
    rw [universityRepoDetails] at hp
    rcases List.mem_map.mp hp with ⟨r, hr, hpr⟩
    refine ⟨r, ?_, hpr.symm, ?_⟩
    · rw [sortRows] at hr
      exact List.mem_mergeSort.mp hr
    · rw [← hpr]
      exact min_le_right _ _
  · intro r hr
    rw [universityRepoDetails]
    exact List.mem_map_of_mem _ (by rw [sortRows]; exact List.mem_mergeSort.mpr hr)
  · rw [universityTotalScore, foldl_add_eq_sum, universityRepoDetails, List.map_map]
    simp only [zero_add]
    rfl

/-- Witness for C1 on a one-row breakdown: weight 5 against importance 3. -/
theorem university_score_capped_w :
    ((exRow.slug, cappedScore exRow) ∈ universityRepoDetails [exRow]) ∧
    (∃ r, r ∈ [exRow] ∧ (exRow.slug, cappedScore exRow) = (r.slug, cappedScore r) ∧
      (exRow.slug, cappedScore exRow).2 ≤ ((repoImportance r.stars r.totalCommits : ℕ) : ℚ)) :=
  ⟨(university_score_capped [exRow]).2.1 exRow (List.mem_cons_self exRow []),
   (university_score_capped [exRow]).1 (exRow.slug, cappedScore exRow)
     ((university_score_capped [exRow]).2.1 exRow (List.mem_cons_self exRow []))⟩

/-! ### Helper lemmas: the scoring fold -/

theorem alUpdate_forall {α : Type} {P : α → Prop} (l : List (Str × α)) (k : Str) (dflt : α)
    (f : α → α) (hl : ∀ p ∈ l, P p.2) (hd : P (f dflt)) (hf : ∀ v, P v → P (f v)) :
    ∀ p ∈ alUpdate l k dflt f, P p.2 := by
  induction l with
  | nil =>
    intro p hp
    rw [alUpdate] at hp
    have h := List.mem_singleton.mp hp
    rw [h]
    exact hd
  | cons q rest ih =>
    obtain ⟨k0, v⟩ := q
    intro p hp
    rw [alUpdate] at hp
    by_cases hk : k0 = k
    · rw [if_pos hk] at hp
      rcases List.mem_cons.mp hp with h | h
      · rw [h]
        exact hf v (hl (k0, v) (List.mem_cons_self _ _))
      · exact hl p (List.mem_cons_of_mem _ h)
    · rw [if_neg hk] at hp
      rcases List.mem_cons.mp hp with h | h
      · rw [h]
        exact hl (k0, v) (List.mem_cons_self _ _)
      · exact ih (fun r hr => hl r (List.mem_cons_of_mem _ hr)) p h

theorem enumerateFrom_fst_lt {α : Type} (l : List α) (i : ℕ) :
    ∀ p ∈ enumerateFrom i l, p.1 < i + l.length := by
  induction l generalizing i with
  | nil =>
    intro p hp
    rw [enumerateFrom] at hp
    simp at hp
  | cons a t ih =>
    intro p hp
    rw [enumerateFrom] at hp
    rcases List.mem_cons.mp hp with h | h
    · rw [h]
      simp only [List.length_cons]
      omega
    · have := ih (i + 1) p h
      simp only [List.length_cons]
      omega

theorem fold_contributors_inv (uniMap aliases : List (Str × Str)) (I N : ℕ)
    (l : List (ℕ × (Str × Str))) (st : ScoreState)
    (hk : ∀ p ∈ l, p.1 < N)
    (hst : ∀ p ∈ st.contributors, ValidContributor p.2) :
    ∀ p ∈ (l.foldl (fun s kc => scoreStep uniMap aliases I N s kc.1 kc.2.1 kc.2.2)
        st).contributors, ValidContributor p.2 := by
  induction l generalizing st with
  | nil => exact hst
  | cons kc t ih =>
    rw [List.foldl_cons]
    apply ih
    · intro p hp
      exact hk p (List.mem_cons_of_mem _ hp)
    · have hkN : kc.1 < N := hk kc (List.mem_cons_self _ _)
      have hN0 : 0 < N := by omega
      have hNQ : (0 : ℚ) < (N : ℚ) := by exact_mod_cast hN0
      have hpos : (0 : ℚ) ≤ (kc.1 : ℚ) / (N : ℚ) ∧ (kc.1 : ℚ) / (N : ℚ) < 1 := by
        constructor
        · positivity
        · rw [div_lt_one hNQ]
          exact_mod_cast hkN
      rcases hres : resolve_email kc.2.2 aliases with _ | d0
      · have hstep : scoreStep uniMap aliases I N st kc.1 kc.2.1 kc.2.2 = st := by
          rw [scoreStep, hres]
        rw [hstep]
        exact hst
      · intro p hp
        simp only [scoreStep, hres] at hp
        refine alUpdate_forall _ _ _ _ hst ?_ ?_ p hp
        · refine ⟨by simp [newContributor], by simp [newContributor], ?_⟩
          intro q hq
          simp only [newContributor, List.nil_append, List.mem_singleton] at hq
          rw [hq]
          exact hpos
        · intro v hv
          refine ⟨by show 1 ≤ v.commits + 1; omega, by simp, ?_⟩
          intro q hq
          rcases List.mem_append.mp hq with h | h
          · exact hv.2.2 q h
          · rw [List.mem_singleton.mp h]
            exact hpos

theorem scoreRepo_contributors_inv (uniMap aliases : List (Str × Str)) (stars : ℕ)
    (commits : List (Str × Str)) :
    ∀ p ∈ (scoreRepo uniMap aliases stars commits).contributors, ValidContributor p.2 := by
  rw [scoreRepo]
  apply fold_contributors_inv
  · intro p hp
    have := enumerateFrom_fst_lt commits 0 p hp
    simpa using this
  · intro p hp
    simp [initState] at hp

/-! ### C10: contributor records are well formed -/

/-- C10. Every contributor record produced by scoring has at least one commit
and a non-empty positions list inside `[0, 1)`; consequently the
empty-positions fallback branches of the project output are not taken. -/
theorem contributor_records_valid (uniMap aliases : List (Str × Str)) (stars : ℕ)
    (commits : List (Str × Str)) (p : Str × Contributor)
    (hp : p ∈ (scoreRepo uniMap aliases stars commits).contributors) :
    ValidContributor p.2 ∧
      medianPos p.2.positions =
        (sortPositions p.2.positions).getD (p.2.positions.length / 2) 0 ∧
      firstCommitPct p.2.positions = listMin p.2.positions * 100 ∧
      lastCommitPct p.2.positions = listMax p.2.positions * 100 := by
  have hv := scoreRepo_contributors_inv uniMap aliases stars commits p hp
  have hne : p.2.positions.isEmpty = false := by
    rcases h : p.2.positions with _ | _
    · exact absurd h hv.2.1
    · rfl
  exact ⟨hv, by simp [medianPos, hne], by simp [firstCommitPct, hne],
    by simp [lastCommitPct, hne]⟩

/-! ### Concrete evaluation of the worked example -/

theorem scoreRepo_exCommits_eval :
    scoreRepo [] [] 0 exCommits =
      ⟨[("mit.edu".data, 2)], [("mit.edu".data, 1)],
        [("mit.edu".data, ⟨1, 1, 1⟩)],
        [("a".data, ⟨1, 2, [0], "mit.edu".data, ⟨1, 1, 1⟩⟩)]⟩ := by
  have h1 : resolve_email "a@mit.edu".data [] = some "mit.edu".data := by decide
  have h2 : resolve_email "b@gmail.com".data [] = none := by decide
  have h3 : normalize_domain "mit.edu".data [] = "mit.edu".data := by decide
  rw [scoreRepo]
  norm_num [exCommits, enumerateFrom, scoreStep, h1, h2, h3, initState, alUpdate,
    repoImportance, newContributor, zeroDecay]

/-- C5. The worked example: two commits, zero stars; the first commit's author
resolves to `mit.edu`, the second does not.  The accumulated weight is `2`,
the capped score is `2`, and the harmonic and linear decay sums are `1`. -/
theorem example_scoring :
    alLookup (scoreRepo [] [] 0 exCommits).uniWeighted "mit.edu".data = some 2 ∧
    cappedScore ⟨"demo/repo".data,
      ((alLookup (scoreRepo [] [] 0 exCommits).uniWeighted "mit.edu".data).getD 0), 0, 2⟩ = 2 ∧
    (alLookup (scoreRepo [] [] 0 exCommits).uniDecay "mit.edu".data).map DecaySums.harmonic
      = some 1 ∧
    (alLookup (scoreRepo [] [] 0 exCommits).uniDecay "mit.edu".data).map DecaySums.linear
      = some 1 := by
  rw [scoreRepo_exCommits_eval]
  refine ⟨?_, ?_, ?_, ?_⟩ <;> norm_num [alLookup, cappedScore, repoImportance]

/-- Witness for C10 on the worked example's single contributor record. -/
theorem contributor_records_valid_w :
    (("a".data, (⟨1, 2, [0], "mit.edu".data, ⟨1, 1, 1⟩⟩ : Contributor)) ∈
        (scoreRepo [] [] 0 exCommits).contributors) ∧
    ValidContributor (⟨1, 2, [0], "mit.edu".data, ⟨1, 1, 1⟩⟩ : Contributor) := by
  have hp : (("a".data, (⟨1, 2, [0], "mit.edu".data, ⟨1, 1, 1⟩⟩ : Contributor)) :
      Str × Contributor) ∈ (scoreRepo [] [] 0 exCommits).contributors := by
    rw [scoreRepo_exCommits_eval]
    exact List.mem_singleton.mpr rfl
  exact ⟨hp, (contributor_records_valid [] [] 0 exCommits _ hp).1⟩

/-! ### Helper lemmas: sorting and ranking -/

theorem addRanks_map_snd (l : List Uni) (i : ℕ) :
    (addRanks l i).map (fun p => p.2) = List.range' i l.length := by
  induction l generalizing i with
  | nil => simp [addRanks]
  | cons u t ih =>
    rw [addRanks, List.map_cons, ih]
    rfl

theorem sortUniversities_sorted (us : List Uni) :
    List.Pairwise (fun a b : Uni => b.score ≤ a.score) (sortUniversities us) := by
  rw [sortUniversities]
  have htrans : ∀ (a b c : Uni), (fun a b : Uni => decide (b.score ≤ a.score)) a b →
      (fun a b : Uni => decide (b.score ≤ a.score)) b c →
      (fun a b : Uni => decide (b.score ≤ a.score)) a c := by
    intro a b c hab hbc
    simp only [decide_eq_true_eq] at *
    exact le_trans hbc hab
  have htotal : ∀ (a b : Uni), ((fun a b : Uni => decide (b.score ≤ a.score)) a b
      || (fun a b : Uni => decide (b.score ≤ a.score)) b a) = true := by
    intro a b
    simp only [Bool.or_eq_true, decide_eq_true_eq]
    exact le_total b.score a.score
  have h := List.sorted_mergeSort htrans htotal us
  exact h.imp (fun hab => by simpa using hab)

theorem sortUniversities_filter_score (us : List Uni) (s : ℚ) :
    (sortUniversities us).filter (fun u => decide (u.score = s)) =
      us.filter (fun u => decide (u.score = s)) := by
  have htrans : ∀ (a b c : Uni), (fun a b : Uni => decide (b.score ≤ a.score)) a b →
      (fun a b : Uni => decide (b.score ≤ a.score)) b c →
      (fun a b : Uni => decide (b.score ≤ a.score)) a c := by
    intro a b c hab hbc
    simp only [decide_eq_true_eq] at *
    exact le_trans hbc hab
  have htotal : ∀ (a b : Uni), ((fun a b : Uni => decide (b.score ≤ a.score)) a b
      || (fun a b : Uni => decide (b.score ≤ a.score)) b a) = true := by
    intro a b
    simp only [Bool.or_eq_true, decide_eq_true_eq]
    exact le_total b.score a.score
  have hmem : ∀ x ∈ us.filter (fun u => decide (u.score = s)), x.score = s := by
    intro x hx
    have := (List.mem_filter.mp hx).2
    simpa using this
  have hc : (us.filter (fun u => decide (u.score = s))).Pairwise
      (fun a b : Uni => (fun a b : Uni => decide (b.score ≤ a.score)) a b) := by
    apply List.pairwise_of_forall_mem_list
    intro a ha b hb
    simp only [decide_eq_true_eq]
    rw [hmem a ha, hmem b hb]
  have hsub := List.sublist_mergeSort htrans htotal hc (List.filter_sublist us)
  have hperm := (List.mergeSort_perm us (fun a b : Uni => decide (b.score ≤ a.score))).filter
    (fun u => decide (u.score = s))
  have hfil : (us.filter (fun u => decide (u.score = s))).filter
      (fun u => decide (u.score = s)) = us.filter (fun u => decide (u.score = s)) :=
    List.filter_eq_self.mpr (fun a ha => (List.mem_filter.mp ha).2)
  have hsub2 := hsub.filter (fun u => decide (u.score = s))
  rw [hfil] at hsub2
  rw [sortUniversities]
  exact (hsub2.eq_of_length hperm.length_eq.symm).symm

/-! ### C8: dense ranks in non-increasing score order with stable ties -/

/-- C8. The ranks attached to the sorted universities list are exactly
`1..n`; the sorted list is in non-increasing score order; and elements of any
fixed score keep their original relative order (stable ties). -/
theorem ranks_dense_and_sorted (us : List Uni) :
    (rankedUniversities us).map (fun p => p.2) = List.range' 1 us.length ∧
    List.Pairwise (fun a b : Uni => b.score ≤ a.score) (sortUniversities us) ∧
    ∀ s : ℚ, (sortUniversities us).filter (fun u => decide (u.score = s)) =
      us.filter (fun u => decide (u.score = s)) := by
  refine ⟨?_, sortUniversities_sorted us, fun s => sortUniversities_filter_score us s⟩
  have hlen : (sortUniversities us).length = us.length := by
    simp [sortUniversities]
  rw [rankedUniversities, addRanks_map_snd, hlen]

/-! ### C9: exposed top-50 list versus full project total -/

theorem sortContributors_sorted (cs : List (Str × Contributor)) :
    List.Pairwise (fun a b : Str × Contributor => b.2.score ≤ a.2.score)
      (sortContributors cs) := by
  rw [sortContributors]
  have htrans : ∀ (a b c : Str × Contributor),
      (fun a b : Str × Contributor => decide (b.2.score ≤ a.2.score)) a b →
      (fun a b : Str × Contributor => decide (b.2.score ≤ a.2.score)) b c →
      (fun a b : Str × Contributor => decide (b.2.score ≤ a.2.score)) a c := by
    intro a b c hab hbc
    simp only [decide_eq_true_eq] at *
    exact le_trans hbc hab
  have htotal : ∀ (a b : Str × Contributor),
      ((fun a b : Str × Contributor => decide (b.2.score ≤ a.2.score)) a b
      || (fun a b : Str × Contributor => decide (b.2.score ≤ a.2.score)) b a) = true := by
    intro a b
    simp only [Bool.or_eq_true, decide_eq_true_eq]
    exact le_total b.2.score a.2.score
  have h := List.sorted_mergeSort htrans htotal cs
  exact h.imp (fun hab => by simpa using hab)

/-- C9. A project's exposed contributor list is the initial 50-element segment
of the full score-sorted contributor list, while `total_score` is the sum of
the scores of all qualifying contributors — the exposed ones plus the
truncated remainder. -/
theorem project_top_fifty (uniMap : List (Str × Str)) (cs : List (Str × Contributor)) :
    (exposedContributors uniMap cs).length ≤ 50 ∧
    List.Pairwise (fun a b : ContribOut => b.score ≤ a.score)
      (topContributors uniMap cs) ∧
    exposedContributors uniMap cs ++ (topContributors uniMap cs).drop 50 =
      topContributors uniMap cs ∧
    projectTotalScore uniMap cs =
      ((exposedContributors uniMap cs).map (fun c => c.score)).sum +
        (((topContributors uniMap cs).drop 50).map (fun c => c.score)).sum := by
  refine ⟨?_, ?_, ?_, ?_⟩
  · rw [exposedContributors]
    exact List.length_take_le _ _
  · rw [topContributors, List.pairwise_map]
    exact (sortContributors_sorted cs).imp (fun hab => hab)
  · rw [exposedContributors]
    exact List.take_append_drop 50 _
  · rw [projectTotalScore, exposedContributors]
    conv_lhs => rw [← List.take_append_drop 50 (topContributors uniMap cs)]
    rw [List.map_append, List.sum_append]
